import Mathlib

/-!
Verification of the `ShadowMap` template from `flexible-shadow.hpp`.

A `ShadowMap<Address, Leaf, shadow_malloc, shadow_free, dimension0, dimensions...>`
is a recursively defined sparse map: the specialization with a single
dimension stores one `Leaf` record; a map with more dimensions stores an
array of `1 << dimension0` pointers to lower-level maps, each possibly null.

Embedding choices:
* The dimension list of a map is split into `interior : List Nat` (all
  dimensions except the last) and `dn : Nat` (the last dimension).  The
  single-dimension specialization corresponds to `interior = []`.
* The heap structure reachable from a map is `Tree interior`: `Unit` for the
  single-dimension specialization (the `Leaf` record itself is opaque), and a
  list of optional child trees for the recursive case (the `_pointers` array,
  `none` = `nullptr`).
* A C++ `Leaf*` return value is represented by the access path (list of child
  indices) leading from the map to the leaf-level node whose `_leaf` member is
  returned: two calls return equal pointers iff they reach the same node, and
  in a strict tree a node is identified by its path.
* Methods are translated in state-passing style: they return their result
  together with the (possibly updated) tree, plus an event log where the
  lifecycle of nodes matters (`shadow_malloc` + `constructAt` events for
  `leaf_for_write`, `destructAt` + `shadow_free` events for teardown), each
  event being the path of the affected node.
* `Address` values are natural numbers; all bitwise operations used by the
  source (`>>`, `&`, `1ul << d`) are overflow-free on unsigned values, so
  `Nat` is a faithful model.
-/

namespace ShadowMap

/-- Shape of the heap data owned by a map whose non-terminal dimensions are
`interior`.  `ShadowMap<...,dimension0>` stores a single `Leaf` (opaque here),
a recursive `ShadowMap` stores the `_pointers` array of nullable children. -/
@[reducible] def Tree : List Nat → Type
  | [] => Unit
  | _ :: rest => List (Option (Tree rest))

/-- `dimensions_sum` of the map with non-terminal dimensions `interior` and
last dimension `dn`: `dimension0 + Lower::dimensions_sum`, and `dimension0`
in the terminal specialization. -/
def dimensions_sum : List Nat → Nat → Nat
  | [], dn => dn
  | d0 :: rest, dn => d0 + dimensions_sum rest dn

/-- The child-selection index computed at the top of a recursive map:
`(addr >> Lower::dimensions_sum) & ((1ul << dimension0) - 1)`. -/
def childIndex (d0 : Nat) (rest : List Nat) (dn : Nat) (addr : Nat) : Nat :=
  (addr >>> dimensions_sum rest dn) &&& ((1 <<< d0) - 1)

/-- `constructAt`: the terminal specialization runs `_leaf.construct()`
(opaque), the recursive map sets every `_pointers` slot to `nullptr`. -/
def constructAt : (interior : List Nat) → Tree interior
  | [] => ()
  | d0 :: rest => List.replicate (1 <<< d0) (none : Option (Tree rest))

/-- Read-only lookup `ShadowMap::leaf`.  Returns the leaf pointer (`none` =
`nullptr`, `some path` = address of the `_leaf` member of the node at `path`)
and the tree after the call (state-passing translation). -/
def leaf : (interior : List Nat) → (dn : Nat) → Tree interior → Nat →
    Option (List Nat) × Tree interior
  | [], _, t, _ => (some [], t)
  | d0 :: rest, dn, t, addr =>
    match List.getD t (childIndex d0 rest dn addr) none with
    | none => (none, t)
    | some child =>
      let r := leaf rest dn child addr
      (Option.map (fun p => childIndex d0 rest dn addr :: p) r.1,
       List.set t (childIndex d0 rest dn addr) (some r.2))

/-- Write-triggering lookup `ShadowMap::leaf_for_write`.  Returns the leaf
pointer (as a path, never null), the updated tree, and the log of
`shadow_malloc` + `constructAt` events: the path of every node allocated and
constructed during the call, in execution order. -/
def leaf_for_write : (interior : List Nat) → (dn : Nat) → Tree interior → Nat →
    List Nat × Tree interior × List (List Nat)
  | [], _, t, _ => ([], t, [])
  | d0 :: rest, dn, t, addr =>
    match List.getD t (childIndex d0 rest dn addr) none with
    | none =>
      let r := leaf_for_write rest dn (constructAt rest) addr
      (childIndex d0 rest dn addr :: r.1,
       List.set t (childIndex d0 rest dn addr) (some r.2.1),
       [childIndex d0 rest dn addr] ::
         List.map (fun p => childIndex d0 rest dn addr :: p) r.2.2)
    | some child =>
      let r := leaf_for_write rest dn child addr
      (childIndex d0 rest dn addr :: r.1,
       List.set t (childIndex d0 rest dn addr) (some r.2.1),
       List.map (fun p => childIndex d0 rest dn addr :: p) r.2.2)

/-- `ShadowMap::index`: the recursive map delegates to `Lower::index`, the
terminal specialization returns `addr & ((1ul << dimension0) - 1)`. -/
def index : (interior : List Nat) → (dn : Nat) → Nat → Nat
  | [], dn, addr => addr &&& ((1 <<< dn) - 1)
  | _ :: rest, dn, addr => index rest dn addr

/-- `ShadowMap::contiguousElements`: the recursive map delegates to `Lower`,
the terminal specialization returns `(1ul << dimension0) - index(addr)`. -/
def contiguousElements : (interior : List Nat) → (dn : Nat) → Nat → Nat
  | [], dn, addr => (1 <<< dn) - index [] dn addr
  | _ :: rest, dn, addr => contiguousElements rest dn addr

/-- Helper for the teardown loop of `ShadowMap::destructAt`: iterate over the
`_pointers` array (with `i` the index of the first slot of `cs`); for each
non-null slot, first the events of the recursive `Lower::destructAt` call on
the child (given by `f`), then the `shadow_free` of the child itself. -/
def destructAtChildren {α : Type} (f : α → List (List Nat)) :
    List (Option α) → Nat → List (List Nat)
  | [], _ => []
  | none :: cs, i => destructAtChildren f cs (i + 1)
  | some c :: cs, i =>
    (List.map (fun p => i :: p) (f c) ++ [[i]]) ++ destructAtChildren f cs (i + 1)

/-- Teardown `ShadowMap::destructAt`, as its event log: the path of every
node on which `destructAt` + `shadow_free` runs, in the order the
`shadow_free` calls happen.  The terminal specialization only runs
`_leaf.destruct()` on its own record and frees nothing. -/
def destructAt : (interior : List Nat) → Tree interior → List (List Nat)
  | [], _ => []
  | _ :: rest, t => destructAtChildren (fun c => destructAt rest c) t 0

/-- A node of the tree is live (allocated and constructed): the root always
is; a deeper node is live if the slot leading to it is non-null in its live
parent. -/
def present : (interior : List Nat) → Tree interior → List Nat → Bool
  | _, _, [] => true
  | [], _, _ :: _ => false
  | _ :: rest, t, i :: p =>
    match List.getD t i none with
    | none => false
    | some c => present rest c p

/-- Structural well-formedness: every `_pointers` list has the length the C++
array type fixes (`1 << dimension0`), recursively.  It holds for freshly
constructed maps and is preserved by all operations. -/
def WF : (interior : List Nat) → Tree interior → Bool
  | [], _ => true
  | d0 :: rest, t =>
    (List.length t == 1 <<< d0) &&
      List.all t (fun oc => match oc with | none => true | some c => WF rest c)

/-- Number of dynamically allocated nodes strictly below the map itself. -/
def countNodes : (interior : List Nat) → Tree interior → Nat
  | [], _ => 0
  | _ :: rest, t =>
    List.sum (List.map (fun oc =>
      match oc with | none => 0 | some c => 1 + countNodes rest c) t)

/-- Run a sequence of `leaf_for_write` calls, returning the final tree and
the concatenated allocation event log. -/
def runWrites : (interior : List Nat) → (dn : Nat) → Tree interior → List Nat →
    Tree interior × List (List Nat)
  | _, _, t, [] => (t, [])
  | interior, dn, t, a :: as =>
    let r := leaf_for_write interior dn t a
    let r2 := runWrites interior dn r.2.1 as
    (r2.1, r.2.2 ++ r2.2)

/-- The full sequence of child-selection indices the descent for `addr`
uses, one per non-terminal level. -/
def indexPath : (interior : List Nat) → (dn : Nat) → Nat → List Nat
  | [], _, _ => []
  | d0 :: rest, dn, addr => childIndex d0 rest dn addr :: indexPath rest dn addr


/-! ### Basic list and well-formedness lemmas -/

theorem getD_set_self {α : Type} (l : List (Option α)) (i : Nat) (a : Option α)
    (h : i < List.length l) : List.getD (List.set l i a) i none = a := by
  simp [List.getD_eq_getElem?_getD, List.getElem?_set, h]

theorem getD_set_ne {α : Type} (l : List (Option α)) {i j : Nat} (a : Option α)
    (h : i ≠ j) : List.getD (List.set l i a) j none = List.getD l j none := by
  simp [List.getD_eq_getElem?_getD, List.getElem?_set, h]

theorem lt_length_of_getD_eq_some {α : Type} {l : List (Option α)} {i : Nat} {c : α}
    (h : List.getD l i none = some c) : i < List.length l := by
  by_contra hlt
  push_neg at hlt
  rw [List.getD_eq_getElem?_getD, List.getElem?_eq_none hlt] at h
  simp at h

theorem getElem?_of_getD_eq_some {α : Type} {l : List (Option α)} {i : Nat} {c : α}
    (h : List.getD l i none = some c) : l[i]? = some (some c) := by
  rw [List.getD_eq_getElem?_getD] at h
  cases he : l[i]? with
  | none => rw [he] at h; simp at h
  | some o => rw [he] at h; simp at h; rw [h]

theorem set_getD_eq_self {α : Type} {l : List (Option α)} {i : Nat} {c : α}
    (h : List.getD l i none = some c) : List.set l i (some c) = l := by
  have h2 : l[i]? = some (some c) := getElem?_of_getD_eq_some h
  apply List.ext_getElem?
  intro j
  rw [List.getElem?_set]
  by_cases hij : i = j
  · subst hij
    simp [lt_length_of_getD_eq_some h, h2]
  · simp [hij]

theorem childIndex_lt (d0 : Nat) (rest : List Nat) (dn addr : Nat) :
    childIndex d0 rest dn addr < 1 <<< d0 := by
  have h1 : childIndex d0 rest dn addr ≤ (1 <<< d0) - 1 := Nat.and_le_right
  have h2 : 0 < 1 <<< d0 := by
    rw [Nat.one_shiftLeft]
    exact Nat.pos_pow_of_pos d0 (by norm_num)
  omega

theorem WF_length {d0 : Nat} {rest : List Nat} {t : Tree (d0 :: rest)}
    (h : WF (d0 :: rest) t = true) : List.length t = 1 <<< d0 := by
  simp only [WF, Bool.and_eq_true, beq_iff_eq] at h
  exact h.1

theorem WF_child {d0 : Nat} {rest : List Nat} {t : Tree (d0 :: rest)} {i : Nat}
    {c : Tree rest} (h : WF (d0 :: rest) t = true)
    (hc : List.getD t i none = some c) : WF rest c = true := by
  simp only [WF, Bool.and_eq_true, List.all_eq_true] at h
  have hmem : (some c) ∈ t :=
    List.mem_iff_getElem?.mpr ⟨i, getElem?_of_getD_eq_some hc⟩
  have := h.2 (some c) hmem
  simpa using this

theorem WF_constructAt (interior : List Nat) :
    WF interior (constructAt interior) = true := by
  cases interior with
  | nil => rfl
  | cons d0 rest =>
    simp only [WF, constructAt, Bool.and_eq_true, beq_iff_eq, List.all_eq_true]
    refine ⟨List.length_replicate _ _, ?_⟩
    intro x hx
    rw [List.eq_of_mem_replicate hx]

theorem WF_leaf_for_write :
    ∀ (interior : List Nat) (dn : Nat) (t : Tree interior) (addr : Nat),
      WF interior t = true →
      WF interior (leaf_for_write interior dn t addr).2.1 = true := by
  intro interior
  induction interior with
  | nil => intro dn t addr h; exact h
  | cons d0 rest ih =>
    intro dn t addr h
    have hlen := WF_length h
    cases hm : List.getD t (childIndex d0 rest dn addr) none with
    | none =>
      simp only [leaf_for_write, hm]
      simp only [WF, Bool.and_eq_true, beq_iff_eq, List.all_eq_true]
      refine ⟨by rw [List.length_set]; exact hlen, ?_⟩
      intro x hx
      rcases List.mem_or_eq_of_mem_set hx with hx' | hx'
      · simp only [WF, Bool.and_eq_true, List.all_eq_true] at h
        exact h.2 x hx'
      · subst hx'
        simpa using ih dn (constructAt rest) addr (WF_constructAt rest)
    | some child =>
      simp only [leaf_for_write, hm]
      simp only [WF, Bool.and_eq_true, beq_iff_eq, List.all_eq_true]
      refine ⟨by rw [List.length_set]; exact hlen, ?_⟩
      intro x hx
      rcases List.mem_or_eq_of_mem_set hx with hx' | hx'
      · simp only [WF, Bool.and_eq_true, List.all_eq_true] at h
        exact h.2 x hx'
      · subst hx'
        simpa using ih dn child addr (WF_child h hm)

/-- The path returned by `leaf_for_write` is exactly the sequence of
child-selection indices of the address, independent of the tree. -/
theorem leaf_for_write_path :
    ∀ (interior : List Nat) (dn : Nat) (t : Tree interior) (addr : Nat),
      (leaf_for_write interior dn t addr).1 = indexPath interior dn addr := by
  intro interior
  induction interior with
  | nil => intro dn t addr; rfl
  | cons d0 rest ih =>
    intro dn t addr
    cases hm : List.getD t (childIndex d0 rest dn addr) none with
    | none => simp only [leaf_for_write, hm, indexPath, List.cons.injEq]; exact ⟨trivial, ih ..⟩
    | some child => simp only [leaf_for_write, hm, indexPath, List.cons.injEq]; exact ⟨trivial, ih ..⟩

/-- Core descent lemma shared by the write-then-read and locality claims:
after a write-triggering lookup on `A`, a read-only lookup on any address `B`
with the same index path returns the record pointer the write returned. -/
theorem leaf_after_write :
    ∀ (interior : List Nat) (dn : Nat) (t : Tree interior) (A B : Nat),
      WF interior t = true →
      indexPath interior dn A = indexPath interior dn B →
      (leaf interior dn (leaf_for_write interior dn t A).2.1 B).1 =
        some (leaf_for_write interior dn t A).1 := by
  intro interior
  induction interior with
  | nil => intro dn t A B _ _; rfl
  | cons d0 rest ih =>
    intro dn t A B hwf hpath
    simp only [indexPath, List.cons.injEq] at hpath
    have hidx : childIndex d0 rest dn B = childIndex d0 rest dn A := hpath.1.symm
    have hlt : childIndex d0 rest dn A < List.length t := by
      rw [WF_length hwf]; exact childIndex_lt ..
    cases hm : List.getD t (childIndex d0 rest dn A) none with
    | none =>
      simp only [leaf_for_write, hm, leaf, hidx,
        getD_set_self _ _ _ hlt]
      rw [ih dn (constructAt rest) A B (WF_constructAt rest) hpath.2]
      rfl
    | some child =>
      simp only [leaf_for_write, hm, leaf, hidx,
        getD_set_self _ _ _ hlt]
      rw [ih dn child A B (WF_child hwf hm) hpath.2]
      rfl

theorem dimensions_sum_eq (rest : List Nat) (dn : Nat) :
    dimensions_sum rest dn = List.sum rest + dn := by
  induction rest with
  | nil => simp [dimensions_sum]
  | cons d r ih => simp [dimensions_sum, ih]; omega

theorem shiftRight_dimensions_sum_congr {A B dn : Nat} (rest : List Nat)
    (h : A >>> dn = B >>> dn) :
    A >>> dimensions_sum rest dn = B >>> dimensions_sum rest dn := by
  rw [dimensions_sum_eq, Nat.add_comm, Nat.shiftRight_add, Nat.shiftRight_add, h]

theorem indexPath_congr :
    ∀ (interior : List Nat) (dn A B : Nat), A >>> dn = B >>> dn →
      indexPath interior dn A = indexPath interior dn B := by
  intro interior
  induction interior with
  | nil => intros; rfl
  | cons d0 rest ih =>
    intro dn A B h
    simp only [indexPath, childIndex, shiftRight_dimensions_sum_congr rest h,
      ih dn A B h]

theorem indexPath_getElem? :
    ∀ (interior : List Nat) (dn addr i : Nat), i < List.length interior →
      (indexPath interior dn addr)[i]? =
        some ((addr >>> (List.sum (List.drop (i + 1) interior) + dn)) &&&
          (2 ^ List.getD interior i 0 - 1)) := by
  intro interior
  induction interior with
  | nil => intro dn addr i h; simp at h
  | cons d0 rest ih =>
    intro dn addr i h
    cases i with
    | zero =>
      simp [indexPath, childIndex, dimensions_sum_eq, Nat.one_shiftLeft]
    | succ i =>
      simp only [indexPath, List.getElem?_cons_succ, List.drop_succ_cons,
        List.getD_cons_succ]
      exact ih dn addr i (by simpa using h)

/-! ### Claim theorems -/

/-- C1: for every well-formed map state and every address, if the
write-triggering lookup `leaf_for_write(addr)` returns record pointer `p`,
then an immediately following read-only `leaf(addr)` on the resulting state
returns the same pointer `p`. -/
theorem write_then_read_consistency (interior : List Nat) (dn : Nat)
    (t : Tree interior) (addr : Nat) (h : WF interior t = true) :
    (leaf interior dn (leaf_for_write interior dn t addr).2.1 addr).1 =
      some (leaf_for_write interior dn t addr).1 :=
  leaf_after_write interior dn t addr addr h rfl

/-- Witness for C1 at the spec's (4, 4) decomposition and address 0x13. -/
theorem write_then_read_consistency_witness :
    WF [4] (constructAt [4]) = true ∧
    (leaf [4] 4 (leaf_for_write [4] 4 (constructAt [4]) 19).2.1 19).1 =
      some (leaf_for_write [4] 4 (constructAt [4]) 19).1 :=
  ⟨by decide, write_then_read_consistency [4] 4 (constructAt [4]) 19 (by decide)⟩

/-- C2 counterexample: the single-dimension specialization is a freshly
created map, yet its read-only lookup returns its embedded record, not
"unmapped" (`none`). -/
theorem fresh_single_level_map_not_unmapped :
    (leaf [] 8 (constructAt []) 0).1 ≠ none := by decide

/-- C2 (amended): for a freshly created map with at least one non-terminal
level (two or more dimensions), read-only lookup returns "unmapped" for
every address. -/
theorem fresh_map_unmapped (d0 : Nat) (rest : List Nat) (dn addr : Nat) :
    (leaf (d0 :: rest) dn (constructAt (d0 :: rest)) addr).1 = none := by
  have hnone : List.getD (constructAt (d0 :: rest))
      (childIndex d0 rest dn addr) none = (none : Option (Tree rest)) := by
    simp only [constructAt, List.getD_eq_getElem?_getD, List.getElem?_replicate]
    split <;> rfl
  simp only [leaf, hnone]

/-- C3: read-only lookup leaves the entire map state unchanged (and its
translation performs no allocation or construction event: the body of
`ShadowMap::leaf` contains no `shadow_malloc`/`constructAt` call). -/
theorem leaf_no_mutation :
    ∀ (interior : List Nat) (dn : Nat) (t : Tree interior) (addr : Nat),
      (leaf interior dn t addr).2 = t := by
  intro interior
  induction interior with
  | nil => intro dn t addr; rfl
  | cons d0 rest ih =>
    intro dn t addr
    cases hm : List.getD t (childIndex d0 rest dn addr) none with
    | none => simp only [leaf, hm]
    | some child =>
      simp only [leaf, hm]
      rw [ih dn child addr, set_getD_eq_self hm]

/-- C5: if every node along the descent path of `addr` already exists (the
read-only lookup succeeds with pointer `p`), then `leaf_for_write(addr)`
returns exactly `p`, leaves the tree unchanged, and allocates nothing. -/
theorem write_idempotent_on_allocated_path :
    ∀ (interior : List Nat) (dn : Nat) (t : Tree interior) (addr : Nat)
      (p : List Nat),
      (leaf interior dn t addr).1 = some p →
      leaf_for_write interior dn t addr = (p, t, []) := by
  intro interior
  induction interior with
  | nil =>
    intro dn t addr p h
    simp only [leaf] at h
    injection h with h
    subst h
    rfl
  | cons d0 rest ih =>
    intro dn t addr p h
    cases hm : List.getD t (childIndex d0 rest dn addr) none with
    | none =>
      simp only [leaf, hm] at h
      exact Option.noConfusion h
    | some child =>
      simp only [leaf, hm] at h
      rw [Option.map_eq_some'] at h
      obtain ⟨q, hq, rfl⟩ := h
      simp only [leaf_for_write, hm, ih dn child addr q hq, set_getD_eq_self hm,
        List.map_nil]

/-- Witness for C5: on the (4, 4) map that already shadows 0x13, a second
write-triggering lookup at 0x13 is a pure read. -/
theorem write_idempotent_on_allocated_path_witness :
    (leaf [4] 4 (leaf_for_write [4] 4 (constructAt [4]) 19).2.1 19).1 = some [1] ∧
    leaf_for_write [4] 4 (leaf_for_write [4] 4 (constructAt [4]) 19).2.1 19 =
      ([1], (leaf_for_write [4] 4 (constructAt [4]) 19).2.1, []) :=
  ⟨by decide, write_idempotent_on_allocated_path [4] 4 _ 19 [1] (by decide)⟩

/-- C7: for last-level width `dn`, the intra-leaf offset operation satisfies
`index(addr) = addr mod 2^dn` and the run-length operation satisfies
`contiguousElements(addr) = 2^dn - index(addr)`, for all addresses. -/
theorem offset_correctness (interior : List Nat) (dn addr : Nat) :
    index interior dn addr = addr % 2 ^ dn ∧
    contiguousElements interior dn addr = 2 ^ dn - addr % 2 ^ dn := by
  induction interior with
  | nil =>
    constructor
    · simp [index, Nat.one_shiftLeft, Nat.and_pow_two_sub_one_eq_mod]
    · simp [contiguousElements, index, Nat.one_shiftLeft,
        Nat.and_pow_two_sub_one_eq_mod]
  | cons d0 rest ih => simpa [index, contiguousElements] using ih

/-- C8: the child-selection index of level `i` is the address shifted right
by the sum of all widths strictly below level `i`, masked with
`2^(width of level i) - 1`; and on the (4, 4) example, address 0x13 uses top
index 1, intra-leaf offset 3 and `contiguousElements` 13. -/
theorem child_selection_index (interior : List Nat) (dn : Nat)
    (t : Tree interior) (addr i : Nat) (h : i < List.length interior) :
    ((leaf_for_write interior dn t addr).1)[i]? =
      some ((addr >>> (List.sum (List.drop (i + 1) interior) + dn)) &&&
        (2 ^ List.getD interior i 0 - 1)) ∧
    (leaf_for_write [4] 4 (constructAt [4]) 19).1 = [1] ∧
    index [4] 4 19 = 3 ∧
    contiguousElements [4] 4 19 = 13 := by
  refine ⟨?_, by decide, by decide, by decide⟩
  rw [leaf_for_write_path]
  exact indexPath_getElem? interior dn addr i h

/-- Witness for C8 at the (4, 4) decomposition, level 0, address 0x13. -/
theorem child_selection_index_witness :
    0 < List.length [4] ∧
    (((leaf_for_write [4] 4 (constructAt [4]) 19).1)[0]? =
      some ((19 >>> (List.sum (List.drop 1 [4]) + 4)) &&&
        (2 ^ List.getD [4] 0 0 - 1)) ∧
    (leaf_for_write [4] 4 (constructAt [4]) 19).1 = [1] ∧
    index [4] 4 19 = 3 ∧
    contiguousElements [4] 4 19 = 13) :=
  ⟨by decide, child_selection_index [4] 4 (constructAt [4]) 19 0 (by decide)⟩

/-- C9: if `A` and `B` agree on every bit above the lowest level's width
(`A >>> dn = B >>> dn`), a write-triggering lookup on `A` followed by a
read-only lookup on `B` returns the same record pointer; and concretely,
addresses that do not share that prefix resolve to different records. -/
theorem locality (interior : List Nat) (dn : Nat) (t : Tree interior)
    (A B : Nat) (hwf : WF interior t = true) (hpre : A >>> dn = B >>> dn) :
    (leaf interior dn (leaf_for_write interior dn t A).2.1 B).1 =
      some (leaf_for_write interior dn t A).1 ∧
    (leaf [4] 4 (runWrites [4] 4 (constructAt [4]) [19, 35]).1 19).1 ≠
      (leaf [4] 4 (runWrites [4] 4 (constructAt [4]) [19, 35]).1 35).1 :=
  ⟨leaf_after_write interior dn t A B hwf (indexPath_congr interior dn A B hpre),
   by decide⟩

/-- Witness for C9: 0x13 and 0x1c share the high nibble on the (4, 4) map. -/
theorem locality_witness :
    (WF [4] (constructAt [4]) = true ∧ 19 >>> 4 = 28 >>> 4) ∧
    ((leaf [4] 4 (leaf_for_write [4] 4 (constructAt [4]) 19).2.1 28).1 =
      some (leaf_for_write [4] 4 (constructAt [4]) 19).1 ∧
    (leaf [4] 4 (runWrites [4] 4 (constructAt [4]) [19, 35]).1 19).1 ≠
      (leaf [4] 4 (runWrites [4] 4 (constructAt [4]) [19, 35]).1 35).1) :=
  ⟨⟨by decide, by decide⟩,
   locality [4] 4 (constructAt [4]) 19 28 (by decide) (by decide)⟩

/-- C10: the single-level instantiation returns the address of its single
embedded record from both lookups, for every address and in every state; in
particular `leaf` never returns "unmapped", even on a fresh map. -/
theorem single_level_lookup (dn addr : Nat) (t : Tree []) :
    leaf [] dn t addr = (some [], t) ∧
    leaf_for_write [] dn t addr = ([], t, []) ∧
    (leaf [] dn (constructAt []) addr).1 ≠ none :=
  ⟨rfl, rfl, by simp [leaf]⟩

/-! ### Allocation-event lemmas for `leaf_for_write` -/

theorem leaf_for_write_events_ne_nil :
    ∀ (interior : List Nat) (dn : Nat) (t : Tree interior) (addr : Nat)
      (p : List Nat), p ∈ (leaf_for_write interior dn t addr).2.2 → p ≠ [] := by
  intro interior
  induction interior with
  | nil => intro dn t addr p h; simp [leaf_for_write] at h
  | cons d0 rest _ =>
    intro dn t addr p hp
    cases hm : List.getD t (childIndex d0 rest dn addr) none with
    | none =>
      simp only [leaf_for_write, hm, List.mem_cons, List.mem_map] at hp
      rcases hp with rfl | ⟨q, _, rfl⟩ <;> simp
    | some child =>
      simp only [leaf_for_write, hm, List.mem_map] at hp
      obtain ⟨q, _, rfl⟩ := hp
      simp

theorem leaf_for_write_events_absent :
    ∀ (interior : List Nat) (dn : Nat) (t : Tree interior) (addr : Nat)
      (p : List Nat), p ∈ (leaf_for_write interior dn t addr).2.2 →
      present interior t p = false := by
  intro interior
  induction interior with
  | nil => intro dn t addr p h; simp [leaf_for_write] at h
  | cons d0 rest ih =>
    intro dn t addr p hp
    cases hm : List.getD t (childIndex d0 rest dn addr) none with
    | none =>
      simp only [leaf_for_write, hm, List.mem_cons, List.mem_map] at hp
      rcases hp with rfl | ⟨q, _, rfl⟩ <;> simp only [present, hm]
    | some child =>
      simp only [leaf_for_write, hm, List.mem_map] at hp
      obtain ⟨q, hq, rfl⟩ := hp
      simp only [present, hm]
      exact ih dn child addr q hq

theorem leaf_for_write_monotone :
    ∀ (interior : List Nat) (dn : Nat) (t : Tree interior) (addr : Nat)
      (p : List Nat), present interior t p = true →
      present interior (leaf_for_write interior dn t addr).2.1 p = true := by
  intro interior
  induction interior with
  | nil => intro dn t addr p h; exact h
  | cons d0 rest ih =>
    intro dn t addr p h
    cases p with
    | nil => rfl
    | cons i q =>
      cases hp : List.getD t i none with
      | none =>
        simp only [present, hp] at h
        exact Bool.noConfusion h
      | some c =>
        have hi : i < List.length t := lt_length_of_getD_eq_some hp
        simp only [present, hp] at h
        cases hm : List.getD t (childIndex d0 rest dn addr) none with
        | none =>
          by_cases hie : i = childIndex d0 rest dn addr
          · subst hie; rw [hp] at hm; exact Option.noConfusion hm
          · simp only [leaf_for_write, hm, present,
              getD_set_ne t _ (Ne.symm hie), hp]
            exact h
        | some child =>
          by_cases hie : i = childIndex d0 rest dn addr
          · subst hie
            rw [hp] at hm
            injection hm with hm
            subst hm
            simp only [leaf_for_write, hp, present, getD_set_self t _ _ hi]
            exact ih dn c addr q h
          · simp only [leaf_for_write, hm, present,
              getD_set_ne t _ (Ne.symm hie), hp]
            exact h

theorem leaf_for_write_events_present :
    ∀ (interior : List Nat) (dn : Nat) (t : Tree interior) (addr : Nat)
      (p : List Nat), WF interior t = true →
      p ∈ (leaf_for_write interior dn t addr).2.2 →
      present interior (leaf_for_write interior dn t addr).2.1 p = true := by
  intro interior
  induction interior with
  | nil => intro dn t addr p _ h; simp [leaf_for_write] at h
  | cons d0 rest ih =>
    intro dn t addr p hwf hp
    have hlt : childIndex d0 rest dn addr < List.length t := by
      rw [WF_length hwf]; exact childIndex_lt ..
    cases hm : List.getD t (childIndex d0 rest dn addr) none with
    | none =>
      simp only [leaf_for_write, hm, List.mem_cons, List.mem_map] at hp
      rcases hp with rfl | ⟨q, hq, rfl⟩
      · simp only [leaf_for_write, hm, present, getD_set_self t _ _ hlt]
      · simp only [leaf_for_write, hm, present, getD_set_self t _ _ hlt]
        exact ih dn (constructAt rest) addr q (WF_constructAt rest) hq
    | some child =>
      simp only [leaf_for_write, hm, List.mem_map] at hp
      obtain ⟨q, hq, rfl⟩ := hp
      simp only [leaf_for_write, hm, present, getD_set_self t _ _ hlt]
      exact ih dn child addr q (WF_child hwf hm) hq

theorem leaf_for_write_events_nodup :
    ∀ (interior : List Nat) (dn : Nat) (t : Tree interior) (addr : Nat),
      ((leaf_for_write interior dn t addr).2.2).Nodup := by
  intro interior
  induction interior with
  | nil => intro dn t addr; simp [leaf_for_write]
  | cons d0 rest ih =>
    intro dn t addr
    have hinj : Function.Injective
        (fun p => childIndex d0 rest dn addr :: p : List Nat → List Nat) :=
      fun a b h => by simpa using h
    cases hm : List.getD t (childIndex d0 rest dn addr) none with
    | none =>
      simp only [leaf_for_write, hm, List.nodup_cons]
      refine ⟨?_, (ih dn (constructAt rest) addr).map hinj⟩
      intro hmem
      rw [List.mem_map] at hmem
      obtain ⟨q, hq, hcons⟩ := hmem
      injection hcons with _ h2
      exact leaf_for_write_events_ne_nil rest dn (constructAt rest) addr q hq h2
    | some child =>
      simp only [leaf_for_write, hm]
      exact (ih dn child addr).map hinj

/-- C4: across any sequence of write-triggering lookups, no node is ever
constructed twice (the event log has no duplicate node), a node is
constructed only when absent, and a present node never reverts to absent. -/
theorem no_double_construction (interior : List Nat) (dn : Nat)
    (t : Tree interior) (as : List Nat) (h : WF interior t = true) :
    ((runWrites interior dn t as).2).Nodup ∧
    (∀ p ∈ (runWrites interior dn t as).2, present interior t p = false) ∧
    (∀ p, present interior t p = true →
      present interior (runWrites interior dn t as).1 p = true) := by
  induction as generalizing t with
  | nil =>
    exact ⟨List.nodup_nil, by simp [runWrites], fun p hp => by
      simpa [runWrites] using hp⟩
  | cons a as ihas =>
    obtain ⟨ih1, ih2, ih3⟩ :=
      ihas (leaf_for_write interior dn t a).2.1 (WF_leaf_for_write interior dn t a h)
    refine ⟨?_, ?_, ?_⟩
    · simp only [runWrites]
      rw [List.nodup_append]
      refine ⟨leaf_for_write_events_nodup interior dn t a, ih1, ?_⟩
      intro p hp1 hp2
      have h1 := leaf_for_write_events_present interior dn t a p h hp1
      have h2 := ih2 p hp2
      rw [h1] at h2
      exact Bool.noConfusion h2
    · intro p hp
      simp only [runWrites, List.mem_append] at hp
      rcases hp with hp | hp
      · exact leaf_for_write_events_absent interior dn t a p hp
      · by_contra hb
        have hT : present interior t p = true := by
          cases hpt : present interior t p with
          | false => exact absurd hpt hb
          | true => rfl
        have := leaf_for_write_monotone interior dn t a p hT
        rw [ih2 p hp] at this
        exact Bool.noConfusion this
    · intro p hp
      simp only [runWrites]
      exact ih3 p (leaf_for_write_monotone interior dn t a p hp)

/-- Witness for C4: three writes on a fresh two-level map, one repeated. -/
theorem no_double_construction_witness :
    WF [2] (constructAt [2]) = true ∧
    (((runWrites [2] 2 (constructAt [2]) [19, 19, 7]).2).Nodup ∧
    (∀ p ∈ (runWrites [2] 2 (constructAt [2]) [19, 19, 7]).2,
      present [2] (constructAt [2]) p = false) ∧
    (∀ p, present [2] (constructAt [2]) p = true →
      present [2] (runWrites [2] 2 (constructAt [2]) [19, 19, 7]).1 p = true)) :=
  ⟨by decide, no_double_construction [2] 2 (constructAt [2]) [19, 19, 7] (by decide)⟩

/-! ### Teardown lemmas -/

theorem destructAtChildren_head {α : Type} (f : α → List (List Nat)) :
    ∀ (cs : List (Option α)) (i : Nat) (p : List Nat),
      p ∈ destructAtChildren f cs i → ∃ h q, p = h :: q ∧ i ≤ h := by
  intro cs
  induction cs with
  | nil => intro i p h; simp [destructAtChildren] at h
  | cons c0 cs ih =>
    intro i p hp
    cases c0 with
    | none =>
      obtain ⟨h, q, rfl, hh⟩ := ih (i + 1) p hp
      exact ⟨h, q, rfl, by omega⟩
    | some c0 =>
      rw [destructAtChildren] at hp
      simp only [List.mem_append, List.mem_map, List.mem_singleton] at hp
      rcases hp with (⟨q, _, rfl⟩ | rfl) | hp
      · exact ⟨i, q, rfl, Nat.le_refl i⟩
      · exact ⟨i, [], rfl, Nat.le_refl i⟩
      · obtain ⟨h, q, rfl, hh⟩ := ih (i + 1) p hp
        exact ⟨h, q, rfl, by omega⟩

theorem destructAtChildren_mem {α : Type} (f : α → List (List Nat)) :
    ∀ (cs : List (Option α)) (i : Nat) (p : List Nat),
      p ∈ destructAtChildren f cs i ↔
        ∃ j c, cs[j]? = some (some c) ∧
          (p = [i + j] ∨ ∃ q ∈ f c, p = (i + j) :: q) := by
  intro cs
  induction cs with
  | nil => intro i p; simp [destructAtChildren]
  | cons c0 cs ih =>
    intro i p
    cases c0 with
    | none =>
      rw [destructAtChildren, ih (i + 1) p]
      constructor
      · rintro ⟨j, c, hj, hp⟩
        refine ⟨j + 1, c, by simpa using hj, ?_⟩
        rcases hp with hp | ⟨q, hq, hp⟩
        · exact Or.inl (by rw [hp]; congr 1; omega)
        · exact Or.inr ⟨q, hq, by rw [hp]; congr 1; omega⟩
      · rintro ⟨j, c, hj, hp⟩
        cases j with
        | zero => simp at hj
        | succ j =>
          refine ⟨j, c, by simpa using hj, ?_⟩
          rcases hp with hp | ⟨q, hq, hp⟩
          · exact Or.inl (by rw [hp]; congr 1; omega)
          · exact Or.inr ⟨q, hq, by rw [hp]; congr 1; omega⟩
    | some c0 =>
      rw [destructAtChildren]
      simp only [List.mem_append, List.mem_map, List.mem_singleton, ih (i + 1) p]
      constructor
      · rintro ((⟨q, hq, rfl⟩ | rfl) | ⟨j, c, hj, hp⟩)
        · exact ⟨0, c0, by simp, Or.inr ⟨q, hq, by simp⟩⟩
        · exact ⟨0, c0, by simp, Or.inl (by simp)⟩
        · refine ⟨j + 1, c, by simpa using hj, ?_⟩
          rcases hp with hp | ⟨q, hq, hp⟩
          · exact Or.inl (by rw [hp]; congr 1; omega)
          · exact Or.inr ⟨q, hq, by rw [hp]; congr 1; omega⟩
      · rintro ⟨j, c, hj, hp⟩
        cases j with
        | zero =>
          simp only [List.getElem?_cons_zero, Option.some.injEq] at hj
          rcases hj with rfl
          rcases hp with hp | ⟨q, hq, hp⟩
          · exact Or.inl (Or.inr (by rw [hp]; rfl))
          · exact Or.inl (Or.inl ⟨q, hq, by rw [hp]; rfl⟩)
        | succ j =>
          refine Or.inr ⟨j, c, by simpa using hj, ?_⟩
          rcases hp with hp | ⟨q, hq, hp⟩
          · exact Or.inl (by rw [hp]; congr 1; omega)
          · exact Or.inr ⟨q, hq, by rw [hp]; congr 1; omega⟩

theorem destructAtChildren_length {α : Type} (f : α → List (List Nat)) :
    ∀ (cs : List (Option α)) (i : Nat),
      (destructAtChildren f cs i).length =
        List.sum (List.map (fun oc =>
          match oc with | none => 0 | some c => 1 + (f c).length) cs) := by
  intro cs
  induction cs with
  | nil => intro i; rfl
  | cons c0 cs ih =>
    intro i
    cases c0 with
    | none => simpa [destructAtChildren] using ih (i + 1)
    | some c0 =>
      simp only [destructAtChildren, List.length_append, List.length_map,
        List.map_cons, List.sum_cons, ih (i + 1)]
      simp
      omega

theorem destructAtChildren_pairwise {α : Type} (f : α → List (List Nat))
    (hf : ∀ c : α, List.Pairwise (fun a b => ∀ s, b ≠ a ++ s) (f c))
    (hne : ∀ (c : α) (q : List Nat), q ∈ f c → q ≠ []) :
    ∀ (cs : List (Option α)) (i : Nat),
      List.Pairwise (fun a b => ∀ s, b ≠ a ++ s) (destructAtChildren f cs i) := by
  intro cs
  induction cs with
  | nil => intro i; exact List.Pairwise.nil
  | cons c0 cs ih =>
    intro i
    cases c0 with
    | none => exact ih (i + 1)
    | some c0 =>
      rw [destructAtChildren]
      rw [List.pairwise_append]
      refine ⟨?_, ih (i + 1), ?_⟩
      · rw [List.pairwise_append]
        refine ⟨?_, by simp, ?_⟩
        · rw [List.pairwise_map]
          refine (hf c0).imp ?_
          intro a b hab s hs
          simp only [List.cons_append, List.cons.injEq] at hs
          exact hab s hs.2
        · intro a ha b hb s hs
          rw [List.mem_map] at ha
          obtain ⟨q, hq, rfl⟩ := ha
          rw [List.mem_singleton] at hb
          subst hb
          simp only [List.cons_append, List.cons.injEq] at hs
          exact hne c0 q hq (List.append_eq_nil.mp hs.2.symm).1
      · intro a ha b hb s hs
        have hahead : ∃ q, a = i :: q := by
          simp only [List.mem_append, List.mem_map, List.mem_singleton] at ha
          rcases ha with ⟨q, _, rfl⟩ | rfl
          · exact ⟨q, rfl⟩
          · exact ⟨[], rfl⟩
        obtain ⟨q, rfl⟩ := hahead
        obtain ⟨h, q', rfl, hh⟩ := destructAtChildren_head f cs (i + 1) b hb
        simp only [List.cons_append, List.cons.injEq] at hs
        omega

theorem destructAt_ne_nil :
    ∀ (interior : List Nat) (t : Tree interior) (p : List Nat),
      p ∈ destructAt interior t → p ≠ [] := by
  intro interior t p hp
  cases interior with
  | nil => simp [destructAt] at hp
  | cons d0 rest =>
    rw [destructAt] at hp
    obtain ⟨h, q, rfl, _⟩ := destructAtChildren_head _ t 0 p hp
    simp

theorem destructAt_pairwise :
    ∀ (interior : List Nat) (t : Tree interior),
      List.Pairwise (fun a b => ∀ s, b ≠ a ++ s) (destructAt interior t) := by
  intro interior
  induction interior with
  | nil => intro t; exact List.Pairwise.nil
  | cons d0 rest ih =>
    intro t
    rw [destructAt]
    exact destructAtChildren_pairwise _ ih
      (fun c q hq => destructAt_ne_nil rest c q hq) t 0

theorem destructAt_mem :
    ∀ (interior : List Nat) (t : Tree interior) (p : List Nat),
      p ∈ destructAt interior t ↔ (present interior t p = true ∧ p ≠ []) := by
  intro interior
  induction interior with
  | nil =>
    intro t p
    simp only [destructAt, List.not_mem_nil, false_iff]
    rintro ⟨hpres, hne⟩
    cases p with
    | nil => exact hne rfl
    | cons x q => simp [present] at hpres
  | cons d0 rest ih =>
    intro t p
    rw [destructAt, destructAtChildren_mem]
    constructor
    · rintro ⟨j, c, hj, hp⟩
      have hgd : List.getD t j none = some c := by
        rw [List.getD_eq_getElem?_getD, hj]; rfl
      rcases hp with hp | ⟨q, hq, hp⟩
      · rw [hp]
        refine ⟨?_, by simp⟩
        simp only [Nat.zero_add, present, hgd]
      · rw [hp]
        refine ⟨?_, by simp⟩
        simp only [Nat.zero_add, present, hgd]
        exact ((ih c q).mp hq).1
    · rintro ⟨hpres, hne⟩
      cases p with
      | nil => exact absurd rfl hne
      | cons j q =>
        cases hgd : List.getD t j none with
        | none =>
          simp only [present, hgd] at hpres
          exact Bool.noConfusion hpres
        | some c =>
          simp only [present, hgd] at hpres
          refine ⟨j, c, getElem?_of_getD_eq_some hgd, ?_⟩
          cases q with
          | nil => exact Or.inl (by simp)
          | cons x q' =>
            exact Or.inr ⟨x :: q', (ih c (x :: q')).mpr ⟨hpres, by simp⟩,
              by simp⟩

theorem destructAt_length :
    ∀ (interior : List Nat) (t : Tree interior),
      (destructAt interior t).length = countNodes interior t := by
  intro interior
  induction interior with
  | nil => intro t; rfl
  | cons d0 rest ih =>
    intro t
    rw [destructAt, destructAtChildren_length, countNodes]
    congr 1
    apply List.map_congr_left
    intro oc _
    cases oc with
    | none => rfl
    | some c => simp [ih c]

/-- C6: tearing down a map frees exactly `countNodes` nodes, namely every
live node except the root, each exactly once, children strictly before any
of their ancestors (in particular before the parent whose array held them),
and the root itself is never freed. -/
theorem teardown_completeness (interior : List Nat) (t : Tree interior) :
    (destructAt interior t).length = countNodes interior t ∧
    (∀ p, p ∈ destructAt interior t ↔ (present interior t p = true ∧ p ≠ [])) ∧
    (destructAt interior t).Nodup ∧
    List.Pairwise (fun a b => ∀ s, b ≠ a ++ s) (destructAt interior t) ∧
    [] ∉ destructAt interior t := by
  refine ⟨destructAt_length interior t, destructAt_mem interior t, ?_,
    destructAt_pairwise interior t, ?_⟩
  · refine (destructAt_pairwise interior t).imp ?_
    intro a b hab heq
    exact hab [] (by rw [heq, List.append_nil])
  · intro hmem
    exact destructAt_ne_nil interior t [] hmem rfl

end ShadowMap
